import Mathlib

/-!
Verification of the WeSense OrbitDB service.

This file embeds, in Lean, the content-addressed archive tree manager
(`src/ipfs-tree.js`), the archive HTTP routes (`src/routes/archives.js`),
the replication sync trigger and root persistence glue (`src/index.js`),
and the node registry / health routes (`src/routes/nodes.js`,
`src/routes/health.js`), and proves properties of those embeddings.

The content-addressed blob store collaborator (a Helia blockstore driven
through the unixfs operations used by the source: addBytes, addDirectory,
stat, ls, rm, cp) is modelled as an append-only list of blocks.  A content
identifier (cid) is an index into that list; the store never overwrites a
block, and `put` deduplicates, so identical content always receives the
identical identifier (content addressing).  As in the real collaborator,
`rm` is defined on directory blocks only and removing an absent name is a
no-op (a plain filter of the listing), while `cp` fails if the target name
is already present.
-/

/-- File contents, as a byte sequence. -/
abbrev Bytes := List Nat

/-- A block of the content-addressed store: either a file holding bytes or
a directory holding a listing of name / child-identifier pairs. -/
inductive Block where
  | file (content : Bytes)
  | dir (entries : List (String × Nat))
deriving DecidableEq, Repr

/-- The content-addressed store: an append-only sequence of blocks,
addressed by position. -/
abbrev Store := List Block

/-- Look a block up by its identifier. -/
def getBlock : Store → Nat → Option Block
  | [], _ => none
  | b :: _, 0 => some b
  | _ :: s, n + 1 => getBlock s n

/-- Index of the first occurrence of a block in the store, if any. -/
def idxOfBlock : Store → Block → Option Nat
  | [], _ => none
  | b :: s, t => if b = t then some 0 else (idxOfBlock s t).map (· + 1)

/-- Content-addressed put: identical content receives the identical
identifier, new content is appended at a fresh identifier. -/
def put (s : Store) (b : Block) : Store × Nat :=
  match idxOfBlock s b with
  | some i => (s, i)
  | none => (s ++ [b], s.length)

/-- `fs.addBytes`: store file content. -/
def addBytes (s : Store) (content : Bytes) : Store × Nat :=
  put s (.file content)

/-- `fs.addDirectory`: store an empty directory node. -/
def addDirectory (s : Store) : Store × Nat :=
  put s (.dir [])

/-- The entries of a block (empty for a file). -/
def entriesD : Block → List (String × Nat)
  | .file _ => []
  | .dir es => es

/-- One step of `fs.stat(cid, { path: name })`: resolve the child named
`name` of the directory `cid`. -/
def statChild (s : Store) (cid : Nat) (name : String) : Option Nat :=
  match getBlock s cid with
  | some (.dir es) => (es.find? (fun e => e.1 == name)).map (·.2)
  | _ => none

/-- `fs.stat(cid, { path })` over a list of path segments. -/
def statPath (s : Store) (cid : Nat) : List String → Option Nat
  | [] => some cid
  | n :: rest =>
    match statChild s cid n with
    | some c => statPath s c rest
    | none => none

/-- Read the file content stored at a path, if the path resolves to a
file block. -/
def readFileAt (s : Store) (cid : Nat) (p : List String) : Option Bytes :=
  match statPath s cid p with
  | some c =>
    match getBlock s c with
    | some (.file content) => some content
    | _ => none
  | none => none

/-- `fs.rm(cid, name)`: produce a directory identical to `cid` but without
the entry `name`.  Defined on directory blocks only (the collaborator
raises NotADirectoryError otherwise); removing an absent name is a no-op
filter, as in the collaborator's removeFromDirectory. -/
def rmDir (s : Store) (cid : Nat) (name : String) : Option (Store × Nat) :=
  match getBlock s cid with
  | some (.dir es) => some (put s (.dir (es.filter (fun e => !(e.1 == name)))))
  | _ => none

/-- `fs.cp(childCid, parentCid, name)`: link `childCid` under `name` in the
directory `parentCid`.  Fails if the parent is not a directory or the name
is already present (force defaults to false in the collaborator). -/
def cp (s : Store) (childCid parentCid : Nat) (name : String) :
    Option (Store × Nat) :=
  match getBlock s parentCid with
  | some (.dir es) =>
    if es.any (fun e => e.1 == name) then none
    else some (put s (.dir (es ++ [(name, childCid)])))
  | _ => none

/-- The `try { dirCid = await fs.rm(...) } catch { /- fine -/ }` idiom of
`addFileToTree` (src/ipfs-tree.js lines 53-57 and 77-82): on failure the
old identifier is kept. -/
def rmOrKeep (s : Store) (cid : Nat) (name : String) : Store × Nat :=
  match rmDir s cid name with
  | some r => r
  | none => (s, cid)

/-- `addFileToTree(dirCid, pathParts, content)` from src/ipfs-tree.js
lines 49-84: at the final segment store the bytes, unlink any existing
same-named entry and link the new file; at an intermediate segment resolve
(or lazily create) the child, recurse, then unlink and re-link the updated
child.  `none` models a thrown error (only `cp` can throw here). -/
def addFileToTree (s : Store) (dirCid : Nat) (pathParts : List String)
    (content : Bytes) : Option (Store × Nat) :=
  match pathParts with
  | [] => none
  | [name] =>
    let fc := addBytes s content
    let rk := rmOrKeep fc.1 dirCid name
    cp rk.1 fc.2 rk.2 name
  | head :: next :: rest =>
    let child :=
      match statChild s dirCid head with
      | some c => (s, c)
      | none => addDirectory s
    match addFileToTree child.1 child.2 (next :: rest) content with
    | none => none
    | some (s2, newChild) =>
      let rk := rmOrKeep s2 dirCid head
      cp rk.1 newChild rk.2 head

/-- `removeFromTree(dirCid, pathParts)` from src/ipfs-tree.js lines
173-189: at the final segment remove the leaf entry from its parent;
otherwise resolve the head (failing with `Path not found: <head>` if it
does not resolve), recurse, and re-link the rebuilt child. -/
def removeFromTree (s : Store) (dirCid : Nat) :
    List String → Except String (Store × Nat)
  | [] => .error "empty path"
  | [name] =>
    match rmDir s dirCid name with
    | some r => .ok r
    | none => .error "not a directory"
  | head :: next :: rest =>
    match statChild s dirCid head with
    | none => .error ("Path not found: " ++ head)
    | some child =>
      match removeFromTree s child (next :: rest) with
      | .error e => .error e
      | .ok (s1, newChild) =>
        match rmDir s1 dirCid head with
        | none => .error "not a directory"
        | some (s2, d2) =>
          match cp s2 newChild d2 head with
          | none => .error "cp failed"
          | some r => .ok r

/-- Store extension: the new store keeps every old block unchanged at its
old identifier.  This is the structural-sharing frame relation. -/
def StoreExt (s s' : Store) : Prop :=
  s.length ≤ s'.length ∧ ∀ i, i < s.length → getBlock s' i = getBlock s i

/-- Well-formed store: every directory entry points below the store's
length (no dangling identifiers). -/
def WF (s : Store) : Prop :=
  ∀ b ∈ s, ∀ e ∈ entriesD b, e.2 < s.length

instance decWF (s : Store) : Decidable (WF s) :=
  inferInstanceAs (Decidable (∀ b ∈ s, ∀ e ∈ entriesD b, e.2 < s.length))

theorem getBlock_lt {s : Store} {i : Nat} {b : Block}
    (h : getBlock s i = some b) : i < s.length := by
  induction s generalizing i with
  | nil => simp [getBlock] at h
  | cons hd tl ih =>
    cases i with
    | zero => simp
    | succ n =>
      simp only [getBlock] at h
      have := ih h
      simp only [List.length_cons]
      omega

theorem getBlock_mem {s : Store} {i : Nat} {b : Block}
    (h : getBlock s i = some b) : b ∈ s := by
  induction s generalizing i with
  | nil => simp [getBlock] at h
  | cons hd tl ih =>
    cases i with
    | zero => simp [getBlock] at h; simp [h]
    | succ n =>
      simp only [getBlock] at h
      exact List.mem_cons_of_mem _ (ih h)

theorem getBlock_append_left {s : Store} (t : Store) {i : Nat}
    (h : i < s.length) : getBlock (s ++ t) i = getBlock s i := by
  induction s generalizing i with
  | nil => simp at h
  | cons hd tl ih =>
    cases i with
    | zero => rfl
    | succ n =>
      simp only [List.cons_append, getBlock]
      exact ih (by simpa using Nat.lt_of_succ_lt_succ h)

theorem getBlock_append_self (s : Store) (b : Block) :
    getBlock (s ++ [b]) s.length = some b := by
  induction s with
  | nil => rfl
  | cons hd tl ih => simpa [getBlock] using ih

theorem StoreExt.refl (s : Store) : StoreExt s s :=
  ⟨Nat.le_refl _, fun _ _ => rfl⟩

theorem StoreExt.trans {s t u : Store} (h1 : StoreExt s t)
    (h2 : StoreExt t u) : StoreExt s u :=
  ⟨Nat.le_trans h1.1 h2.1, fun i hi =>
    (h2.2 i (Nat.lt_of_lt_of_le hi h1.1)).trans (h1.2 i hi)⟩

theorem StoreExt.getBlock_eq {s s' : Store} (h : StoreExt s s') {i : Nat}
    (hi : i < s.length) : getBlock s' i = getBlock s i := h.2 i hi

theorem storeExt_append (s t : Store) : StoreExt s (s ++ t) :=
  ⟨by simp, fun i hi => getBlock_append_left t hi⟩

theorem idxOfBlock_getBlock {s : Store} {b : Block} {i : Nat}
    (h : idxOfBlock s b = some i) : getBlock s i = some b := by
  induction s generalizing i with
  | nil => simp [idxOfBlock] at h
  | cons hd tl ih =>
    simp only [idxOfBlock] at h
    by_cases hb : hd = b
    · simp [hb] at h
      subst hb
      simp [← h, getBlock]
    · simp [hb] at h
      obtain ⟨j, hj, rfl⟩ := h
      simpa [getBlock] using ih hj

theorem put_ext (s : Store) (b : Block) : StoreExt s (put s b).1 := by
  unfold put
  cases h : idxOfBlock s b with
  | some i => exact StoreExt.refl s
  | none => exact storeExt_append s [b]

theorem put_getBlock (s : Store) (b : Block) :
    getBlock (put s b).1 (put s b).2 = some b := by
  unfold put
  cases h : idxOfBlock s b with
  | some i => simpa using idxOfBlock_getBlock h
  | none => simpa using getBlock_append_self s b

theorem put_lt (s : Store) (b : Block) : (put s b).2 < (put s b).1.length :=
  getBlock_lt (put_getBlock s b)

theorem find?_append {α : Type} (p : α → Bool) (l1 l2 : List α) :
    (l1 ++ l2).find? p =
      match l1.find? p with
      | some x => some x
      | none => l2.find? p := by
  induction l1 with
  | nil => simp
  | cons a l ih =>
    by_cases h : p a
    · simp [List.find?, h]
    · simp only [List.cons_append, List.find?, h]
      simpa [h] using ih

theorem find?_filter_ne (es : List (String × Nat)) {m name : String}
    (h : m ≠ name) :
    (es.filter (fun e => !(e.1 == name))).find? (fun e => e.1 == m) =
      es.find? (fun e => e.1 == m) := by
  induction es with
  | nil => simp
  | cons a l ih =>
    by_cases ha : a.1 = name
    · rw [List.filter_cons_of_neg (by simp [ha]),
        List.find?_cons_of_neg _ (by simp [ha]; exact fun hc => h hc.symm), ih]
    · rw [List.filter_cons_of_pos (by simp [ha])]
      by_cases hb : a.1 = m
      · rw [List.find?_cons_of_pos _ (by simp [hb]),
          List.find?_cons_of_pos _ (by simp [hb])]
      · rw [List.find?_cons_of_neg _ (by simp [hb]),
          List.find?_cons_of_neg _ (by simp [hb]), ih]

theorem find?_filter_self (es : List (String × Nat)) (name : String) :
    (es.filter (fun e => !(e.1 == name))).find? (fun e => e.1 == name) =
      none := by
  induction es with
  | nil => simp
  | cons a l ih =>
    by_cases ha : a.1 = name
    · rw [List.filter_cons_of_neg (by simp [ha])]; exact ih
    · rw [List.filter_cons_of_pos (by simp [ha]),
        List.find?_cons_of_neg _ (by simp [ha])]
      exact ih

theorem any_filter_self (es : List (String × Nat)) (name : String) :
    (es.filter (fun e => !(e.1 == name))).any (fun e => e.1 == name) =
      false := by
  induction es with
  | nil => simp
  | cons a l ih =>
    by_cases ha : a.1 = name
    · rw [List.filter_cons_of_neg (by simp [ha])]; exact ih
    · rw [List.filter_cons_of_pos (by simp [ha])]
      simp only [List.any_cons, ih, Bool.or_false]
      simp [ha]

theorem mem_of_find? {α : Type} {p : α → Bool} {l : List α} {a : α}
    (h : l.find? p = some a) : a ∈ l := by
  induction l with
  | nil => simp [List.find?] at h
  | cons b l ih =>
    by_cases hb : p b
    · simp [List.find?, hb] at h
      simp [h]
    · simp [List.find?, hb] at h
      exact List.mem_cons_of_mem _ (ih h)

theorem find?_pred {α : Type} {p : α → Bool} {l : List α} {a : α}
    (h : l.find? p = some a) : p a = true := by
  induction l with
  | nil => simp [List.find?] at h
  | cons b l ih =>
    by_cases hb : p b
    · simp [List.find?, hb] at h
      subst h
      exact hb
    · simp [List.find?, hb] at h
      exact ih h

theorem entriesD_bound_filter {es : List (String × Nat)} {len : Nat}
    (h : ∀ e ∈ es, e.2 < len) (p : String × Nat → Bool) :
    ∀ e ∈ es.filter p, e.2 < len := fun e he =>
  h e (List.mem_of_mem_filter he)

/-- `put` preserves well-formedness provided the new block's entries are in
bounds. -/
theorem WF_put {s : Store} {b : Block} (hwf : WF s)
    (hb : ∀ e ∈ entriesD b, e.2 < s.length) : WF (put s b).1 := by
  unfold put
  cases h : idxOfBlock s b with
  | some i => exact hwf
  | none =>
    intro b' hb' e he
    have hlen : (s ++ [b]).length = s.length + 1 := by simp
    rw [hlen]
    rcases List.mem_append.mp hb' with h1 | h2
    · exact Nat.lt_succ_of_lt (hwf b' h1 e he)
    · have : b' = b := by simpa using h2
      subst this
      exact Nat.lt_succ_of_lt (hb e he)

theorem statChild_lt {s : Store} {c : Nat} {n : String} {c' : Nat}
    (hwf : WF s) (h : statChild s c n = some c') : c' < s.length := by
  unfold statChild at h
  cases hb : getBlock s c with
  | none => simp [hb] at h
  | some b =>
    cases b with
    | file content => simp [hb] at h
    | dir es =>
      simp only [hb] at h
      cases hf : es.find? (fun e => e.1 == n) with
      | none => simp [hf] at h
      | some e =>
        simp [hf] at h
        have hmem := mem_of_find? hf
        have := hwf _ (getBlock_mem hb) e (by simpa [entriesD] using hmem)
        omega

theorem statChild_ext {s s' : Store} {c : Nat} (hext : StoreExt s s')
    (hc : c < s.length) (n : String) :
    statChild s' c n = statChild s c n := by
  unfold statChild
  rw [hext.getBlock_eq hc]

theorem statPath_ext {s s' : Store} (hwf : WF s) (hext : StoreExt s s')
    {c : Nat} (hc : c < s.length) (q : List String) :
    statPath s' c q = statPath s c q := by
  induction q generalizing c with
  | nil => rfl
  | cons n rest ih =>
    simp only [statPath, statChild_ext hext hc n]
    cases h : statChild s c n with
    | none => rfl
    | some c2 => exact ih (statChild_lt hwf h)

theorem statPath_lt {s : Store} {c : Nat} {q : List String} {c' : Nat}
    (hwf : WF s) (hc : c < s.length) (h : statPath s c q = some c') :
    c' < s.length := by
  induction q generalizing c with
  | nil => simp [statPath] at h; omega
  | cons n rest ih =>
    simp only [statPath] at h
    cases hs : statChild s c n with
    | none => simp [hs] at h
    | some c2 =>
      simp only [hs] at h
      exact ih (statChild_lt hwf hs) h

theorem readFileAt_ext {s s' : Store} (hwf : WF s) (hext : StoreExt s s')
    {c : Nat} (hc : c < s.length) (p : List String) :
    readFileAt s' c p = readFileAt s c p := by
  unfold readFileAt
  rw [statPath_ext hwf hext hc]
  cases h : statPath s c p with
  | none => rfl
  | some c2 =>
    simp only
    rw [hext.getBlock_eq (statPath_lt hwf hc h)]

/-- A block identifier resolving to a directory block. -/
def IsDirAt (s : Store) (cid : Nat) : Prop :=
  ∃ es, getBlock s cid = some (.dir es)

/-- Boolean version of `IsDirAt`, for concrete evaluation. -/
def isDirAtB (s : Store) (cid : Nat) : Bool :=
  match getBlock s cid with
  | some (.dir _) => true
  | _ => false

theorem isDirAtB_iff {s : Store} {cid : Nat} :
    isDirAtB s cid = true ↔ IsDirAt s cid := by
  unfold isDirAtB IsDirAt
  cases h : getBlock s cid with
  | none => simp
  | some b => cases b <;> simp

/-- `p` is a leading segment sequence of `q` (p = q allowed). -/
def ancestorOf : List String → List String → Bool
  | [], _ => true
  | _ :: _, [] => false
  | a :: p, b :: q => a == b && ancestorOf p q

theorem ancestorOf_refl (p : List String) : ancestorOf p p = true := by
  induction p with
  | nil => rfl
  | cons a t ih => simp [ancestorOf, ih]

theorem ancestorOf_cons_iff {a b : String} {p q : List String} :
    ancestorOf (a :: p) (b :: q) = true ↔ a = b ∧ ancestorOf p q = true := by
  simp [ancestorOf]

theorem ancestorOf_singleton {q : List String} {n : String}
    (h : ancestorOf q [n] = true) : q = [] ∨ q = [n] := by
  match q with
  | [] => exact Or.inl rfl
  | [a] =>
    rcases ancestorOf_cons_iff.mp h with ⟨rfl, _⟩
    exact Or.inr rfl
  | a :: b :: t =>
    rcases ancestorOf_cons_iff.mp h with ⟨rfl, h2⟩
    simp [ancestorOf] at h2

theorem statPath_cons {s : Store} {c c2 : Nat} {n : String}
    {p : List String} (h : statChild s c n = some c2) :
    statPath s c (n :: p) = statPath s c2 p := by
  simp [statPath, h]

theorem readFileAt_cons {s : Store} {c c2 : Nat} {n : String}
    {p : List String} (h : statChild s c n = some c2) :
    readFileAt s c (n :: p) = readFileAt s c2 p := by
  unfold readFileAt
  rw [statPath_cons h]

theorem WF_entries {s : Store} {es : List (String × Nat)} {cid : Nat}
    (hwf : WF s) (h : getBlock s cid = some (.dir es)) :
    ∀ e ∈ es, e.2 < s.length := fun e he =>
  hwf _ (getBlock_mem h) e (by simpa [entriesD] using he)

theorem rmOrKeep_dir {s : Store} {dirCid : Nat} {es : List (String × Nat)}
    {name : String} (hdir : getBlock s dirCid = some (.dir es)) :
    rmOrKeep s dirCid name =
      put s (.dir (es.filter (fun e => !(e.1 == name)))) := by
  unfold rmOrKeep rmDir
  rw [hdir]

theorem rmOrKeep_nondir {s : Store} {dirCid : Nat} {name : String}
    (h : ∀ es, getBlock s dirCid ≠ some (.dir es)) :
    rmOrKeep s dirCid name = (s, dirCid) := by
  unfold rmOrKeep rmDir
  cases hb : getBlock s dirCid with
  | none => rfl
  | some b =>
    cases b with
    | file content => rfl
    | dir es => exact absurd hb (h es)

theorem cp_nondir {s : Store} {child parent : Nat} {name : String}
    (h : ∀ es, getBlock s parent ≠ some (.dir es)) :
    cp s child parent name = none := by
  unfold cp
  cases hb : getBlock s parent with
  | none => rfl
  | some b =>
    cases b with
    | file content => rfl
    | dir es => exact absurd hb (h es)

/-- After the source's rm-then-cp idiom on a directory, the result is the
rebuilt directory: old listing with `name` filtered out, then `(name,
child)` appended. -/
theorem cp_after_rm {s : Store} {dirCid : Nat} {es : List (String × Nat)}
    {name : String} {child : Nat}
    (hdir : getBlock s dirCid = some (.dir es)) :
    cp (rmOrKeep s dirCid name).1 child (rmOrKeep s dirCid name).2 name =
      some (put (rmOrKeep s dirCid name).1
        (.dir (es.filter (fun e => !(e.1 == name)) ++ [(name, child)]))) := by
  rw [rmOrKeep_dir hdir]
  unfold cp
  rw [put_getBlock]
  simp only [any_filter_self]
  rfl

/-- Looking up the re-linked name in a rebuilt directory finds the new
child. -/
theorem statChild_rebuilt_self {s' : Store} {D c : Nat}
    {es : List (String × Nat)} {name : String}
    (h : getBlock s' D =
      some (.dir (es.filter (fun e => !(e.1 == name)) ++ [(name, c)]))) :
    statChild s' D name = some c := by
  simp only [statChild, h, find?_append, find?_filter_self]
  simp

/-- Looking up any other name in a rebuilt directory behaves as in the old
listing. -/
theorem statChild_rebuilt_other {s' : Store} {D c : Nat}
    {es : List (String × Nat)} {name m : String} (hm : m ≠ name)
    (h : getBlock s' D =
      some (.dir (es.filter (fun e => !(e.1 == name)) ++ [(name, c)]))) :
    statChild s' D m = (es.find? (fun e => e.1 == m)).map (·.2) := by
  simp only [statChild, h, find?_append, find?_filter_ne es hm]
  cases hf : es.find? (fun e => e.1 == m) with
  | some e => simp
  | none =>
    simp only
    rw [List.find?_cons_of_neg _ (by simp; exact fun hc => hm hc.symm)]
    simp

/-- Common unwind step of insert and remove: on a directory parent, the
rm-then-relink of `head` to `newChild` extends the store, stays
well-formed, and produces a directory whose `head` entry is `newChild`
while every other name resolves as in the old listing. -/
theorem unwind_spec {s2 s' : Store} {dirCid newChild newCid : Nat}
    {head : String} {es : List (String × Nat)}
    (hwf2 : WF s2) (hdb2 : getBlock s2 dirCid = some (.dir es))
    (hnc : newChild < s2.length)
    (h : cp (rmOrKeep s2 dirCid head).1 newChild
      (rmOrKeep s2 dirCid head).2 head = some (s', newCid)) :
    StoreExt s2 s' ∧ WF s' ∧ newCid < s'.length ∧
    statChild s' newCid head = some newChild ∧
    IsDirAt s' newCid ∧
    (∀ m, m ≠ head →
      statChild s' newCid m = (es.find? (fun e => e.1 == m)).map (·.2)) := by
  rw [cp_after_rm hdb2] at h
  have h2 := Option.some.inj h
  rw [rmOrKeep_dir hdb2] at h2
  have hs' :
      (put (put s2 (.dir (es.filter (fun e => !(e.1 == head))))).1
        (.dir (es.filter (fun e => !(e.1 == head)) ++
          [(head, newChild)]))).1 = s' := congrArg Prod.fst h2
  have hnz :
      (put (put s2 (.dir (es.filter (fun e => !(e.1 == head))))).1
        (.dir (es.filter (fun e => !(e.1 == head)) ++
          [(head, newChild)]))).2 = newCid := congrArg Prod.snd h2
  subst hs' hnz
  have hbound : ∀ e ∈ es.filter (fun e => !(e.1 == head)), e.2 < s2.length :=
    fun e he => WF_entries hwf2 hdb2 e (List.mem_of_mem_filter he)
  have hext2 : StoreExt s2 (put s2 (.dir (es.filter (fun e => !(e.1 == head))))).1 :=
    put_ext s2 _
  have hext3 : StoreExt (put s2 (.dir (es.filter (fun e => !(e.1 == head))))).1
      (put (put s2 (.dir (es.filter (fun e => !(e.1 == head))))).1
        (.dir (es.filter (fun e => !(e.1 == head)) ++ [(head, newChild)]))).1 :=
    put_ext _ _
  have hwfA : WF (put s2 (.dir (es.filter (fun e => !(e.1 == head))))).1 :=
    WF_put hwf2 (by simpa [entriesD] using hbound)
  have hwfB : WF (put (put s2 (.dir (es.filter (fun e => !(e.1 == head))))).1
      (.dir (es.filter (fun e => !(e.1 == head)) ++ [(head, newChild)]))).1 := by
    refine WF_put hwfA ?_
    simp only [entriesD]
    intro e he
    rcases List.mem_append.mp he with h1 | h1
    · exact Nat.lt_of_lt_of_le (hbound e h1) hext2.1
    · have : e = (head, newChild) := by simpa using h1
      subst this
      exact Nat.lt_of_lt_of_le hnc hext2.1
  have hb := put_getBlock (put s2 (.dir (es.filter (fun e => !(e.1 == head))))).1
    (.dir (es.filter (fun e => !(e.1 == head)) ++ [(head, newChild)]))
  exact ⟨hext2.trans hext3, hwfB, put_lt _ _, statChild_rebuilt_self hb,
    ⟨_, hb⟩, fun m hm => statChild_rebuilt_other hm hb⟩

/-- Full specification of a successful `addFileToTree`: the store only
grows (structural sharing), the result is a well-formed directory root
under which the inserted path reads back the inserted bytes, resolution of
any path prefix-incomparable with the inserted one is unchanged, every
proper leading segment sequence of the inserted path resolves to a
directory, and no strict extension of the inserted path resolves to a
file. -/
theorem addFile_spec (parts : List String) :
    ∀ (s : Store) (dirCid : Nat) (content : Bytes) (s' : Store)
      (newCid : Nat),
    WF s → dirCid < s.length →
    addFileToTree s dirCid parts content = some (s', newCid) →
    StoreExt s s' ∧ WF s' ∧ newCid < s'.length ∧ IsDirAt s' newCid ∧
    readFileAt s' newCid parts = some content ∧
    (∀ q, ancestorOf parts q = false → ancestorOf q parts = false →
      statPath s' newCid q = statPath s dirCid q) ∧
    (∀ q, ancestorOf q parts = true → q ≠ parts →
      ∃ c, statPath s' newCid q = some c ∧ IsDirAt s' c) ∧
    (∀ q, ancestorOf parts q = true → q ≠ parts →
      readFileAt s' newCid q = none) := by
  induction parts with
  | nil =>
    intro s dirCid content s' newCid hwf hlt h
    simp [addFileToTree] at h
  | cons head tail ih =>
    intro s dirCid content s' newCid hwf hlt h
    cases tail with
    | nil =>
      -- leaf case: parts = [head]
      simp only [addFileToTree] at h
      have hext1 : StoreExt s (addBytes s content).1 := put_ext s _
      have hfc : getBlock (addBytes s content).1 (addBytes s content).2 =
          some (.file content) := put_getBlock s _
      have hfclt : (addBytes s content).2 < (addBytes s content).1.length :=
        put_lt s _
      have hwf1 : WF (addBytes s content).1 :=
        WF_put hwf (by simp [entriesD])
      cases hdb : getBlock s dirCid with
      | none =>
        rw [rmOrKeep_nondir (fun es hcon => by
            rw [(hext1.getBlock_eq hlt)] at hcon
            rw [hdb] at hcon; simp at hcon)] at h
        rw [cp_nondir (fun es hcon => by
            rw [(hext1.getBlock_eq hlt)] at hcon
            rw [hdb] at hcon; simp at hcon)] at h
        exact Option.noConfusion h
      | some b =>
        cases b with
        | file fcon =>
          rw [rmOrKeep_nondir (fun es hcon => by
              rw [(hext1.getBlock_eq hlt)] at hcon
              rw [hdb] at hcon; simp at hcon)] at h
          rw [cp_nondir (fun es hcon => by
              rw [(hext1.getBlock_eq hlt)] at hcon
              rw [hdb] at hcon; simp at hcon)] at h
          exact Option.noConfusion h
        | dir es =>
          have hdb1 : getBlock (addBytes s content).1 dirCid =
              some (.dir es) := by rw [hext1.getBlock_eq hlt, hdb]
          obtain ⟨uext, uwf, ult, uself, uisdir, uother⟩ :=
            unwind_spec hwf1 hdb1 hfclt h
          have hextFull : StoreExt s s' := hext1.trans uext
          have hfile' : getBlock s' (addBytes s content).2 =
              some (.file content) := by
            rw [uext.getBlock_eq hfclt, hfc]
          refine ⟨hextFull, uwf, ult, uisdir, ?_, ?_, ?_, ?_⟩
          · rw [readFileAt_cons uself]
            simp [readFileAt, statPath, hfile']
          · intro q hq1 hq2
            cases q with
            | nil => simp [ancestorOf] at hq2
            | cons m t =>
              by_cases hm : head = m
              · subst hm
                simp [ancestorOf] at hq1
              · have hst : statChild s' newCid m =
                    (es.find? (fun e => e.1 == m)).map (·.2) :=
                  uother m (fun hc => hm hc.symm)
                have hst2 : statChild s dirCid m =
                    (es.find? (fun e => e.1 == m)).map (·.2) := by
                  simp [statChild, hdb]
                cases hf : es.find? (fun e => e.1 == m) with
                | none =>
                  simp [statPath, hst, hst2, hf]
                | some e =>
                  have helt : e.2 < s.length :=
                    WF_entries hwf hdb e (mem_of_find? hf)
                  rw [statPath_cons (by rw [hst, hf]; rfl),
                    statPath_cons (by rw [hst2, hf]; rfl)]
                  exact statPath_ext hwf hextFull helt t
          · intro q hq hqne
            rcases ancestorOf_singleton hq with rfl | rfl
            · exact ⟨newCid, rfl, uisdir⟩
            · exact absurd rfl hqne
          · intro q hq hqne
            cases q with
            | nil => simp [ancestorOf] at hq
            | cons m t =>
              rcases ancestorOf_cons_iff.mp hq with ⟨rfl, _⟩
              cases t with
              | nil => exact absurd rfl hqne
              | cons u t2 =>
                rw [readFileAt_cons uself]
                simp [readFileAt, statPath, statChild, hfile']
    | cons next rest =>
      -- recursive case: parts = head :: next :: rest
      simp only [addFileToTree] at h
      cases hsc : statChild s dirCid head with
      | some c0 =>
        simp only [hsc] at h
        cases hrec : addFileToTree s c0 (next :: rest) content with
        | none => rw [hrec] at h; exact Option.noConfusion h
        | some pr =>
          obtain ⟨s2, newChild⟩ := pr
          rw [hrec] at h
          simp only at h
          have hc0 : c0 < s.length := statChild_lt hwf hsc
          obtain ⟨iext, iwf, ilt, iisdir, iread, iframe, ianc, iextc⟩ :=
            ih s c0 content s2 newChild hwf hc0 hrec
          cases hdb : getBlock s dirCid with
          | none =>
            rw [rmOrKeep_nondir (fun es hcon => by
                rw [iext.getBlock_eq hlt] at hcon
                rw [hdb] at hcon; simp at hcon)] at h
            rw [cp_nondir (fun es hcon => by
                rw [iext.getBlock_eq hlt] at hcon
                rw [hdb] at hcon; simp at hcon)] at h
            exact Option.noConfusion h
          | some b =>
            cases b with
            | file fcon =>
              rw [rmOrKeep_nondir (fun es hcon => by
                  rw [iext.getBlock_eq hlt] at hcon
                  rw [hdb] at hcon; simp at hcon)] at h
              rw [cp_nondir (fun es hcon => by
                  rw [iext.getBlock_eq hlt] at hcon
                  rw [hdb] at hcon; simp at hcon)] at h
              exact Option.noConfusion h
            | dir es =>
              have hdb2 : getBlock s2 dirCid = some (.dir es) := by
                rw [iext.getBlock_eq hlt, hdb]
              obtain ⟨uext, uwf, ult, uself, uisdir, uother⟩ :=
                unwind_spec iwf hdb2 ilt h
              have hextFull : StoreExt s s' := iext.trans uext
              refine ⟨hextFull, uwf, ult, uisdir, ?_, ?_, ?_, ?_⟩
              · rw [readFileAt_cons uself,
                  readFileAt_ext iwf uext ilt (next :: rest)]
                exact iread
              · intro q hq1 hq2
                cases q with
                | nil => simp [ancestorOf] at hq2
                | cons m t =>
                  by_cases hm : head = m
                  · subst hm
                    simp only [ancestorOf, beq_self_eq_true, Bool.true_and] at hq1 hq2
                    rw [statPath_cons uself, statPath_cons hsc,
                      statPath_ext iwf uext ilt t]
                    exact iframe t hq1 hq2
                  · have hst : statChild s' newCid m =
                        (es.find? (fun e => e.1 == m)).map (·.2) :=
                      uother m (fun hc => hm hc.symm)
                    have hst2 : statChild s dirCid m =
                        (es.find? (fun e => e.1 == m)).map (·.2) := by
                      simp [statChild, hdb]
                    cases hf : es.find? (fun e => e.1 == m) with
                    | none => simp [statPath, hst, hst2, hf]
                    | some e =>
                      have helt : e.2 < s.length :=
                        WF_entries hwf hdb e (mem_of_find? hf)
                      rw [statPath_cons (by rw [hst, hf]; rfl),
                        statPath_cons (by rw [hst2, hf]; rfl)]
                      exact statPath_ext hwf hextFull helt t
              · intro q hq hqne
                cases q with
                | nil => exact ⟨newCid, rfl, uisdir⟩
                | cons m t =>
                  rcases ancestorOf_cons_iff.mp hq with ⟨rfl, ht⟩
                  have htne : t ≠ next :: rest := fun hcon => by
                    apply hqne; rw [hcon]
                  obtain ⟨c, hc, hcdir⟩ := ianc t ht htne
                  refine ⟨c, ?_, ?_⟩
                  · rw [statPath_cons uself,
                      statPath_ext iwf uext ilt t]
                    exact hc
                  · obtain ⟨des, hdes⟩ := hcdir
                    exact ⟨des, by
                      rw [uext.getBlock_eq (statPath_lt iwf ilt hc), hdes]⟩
              · intro q hq hqne
                cases q with
                | nil => simp [ancestorOf] at hq
                | cons m t =>
                  rcases ancestorOf_cons_iff.mp hq with ⟨rfl, ht⟩
                  have htne : t ≠ next :: rest := fun hcon => by
                    apply hqne; rw [hcon]
                  rw [readFileAt_cons uself,
                    readFileAt_ext iwf uext ilt t]
                  exact iextc t ht htne
      | none =>
        simp only [hsc] at h
        cases hrec : addFileToTree (addDirectory s).1 (addDirectory s).2
            (next :: rest) content with
        | none => rw [hrec] at h; exact Option.noConfusion h
        | some pr =>
          obtain ⟨s2, newChild⟩ := pr
          rw [hrec] at h
          simp only at h
          have hextD : StoreExt s (addDirectory s).1 := put_ext s _
          have hwfD : WF (addDirectory s).1 := WF_put hwf (by simp [entriesD])
          have hcD : (addDirectory s).2 < (addDirectory s).1.length :=
            put_lt s _
          have hcDblk : getBlock (addDirectory s).1 (addDirectory s).2 =
              some (.dir []) := put_getBlock s _
          obtain ⟨iext, iwf, ilt, iisdir, iread, iframe, ianc, iextc⟩ :=
            ih (addDirectory s).1 (addDirectory s).2 content s2 newChild
              hwfD hcD hrec
          have hextSs2 : StoreExt s s2 := hextD.trans iext
          cases hdb : getBlock s dirCid with
          | none =>
            rw [rmOrKeep_nondir (fun es hcon => by
                rw [hextSs2.getBlock_eq hlt] at hcon
                rw [hdb] at hcon; simp at hcon)] at h
            rw [cp_nondir (fun es hcon => by
                rw [hextSs2.getBlock_eq hlt] at hcon
                rw [hdb] at hcon; simp at hcon)] at h
            exact Option.noConfusion h
          | some b =>
            cases b with
            | file fcon =>
              rw [rmOrKeep_nondir (fun es hcon => by
                  rw [hextSs2.getBlock_eq hlt] at hcon
                  rw [hdb] at hcon; simp at hcon)] at h
              rw [cp_nondir (fun es hcon => by
                  rw [hextSs2.getBlock_eq hlt] at hcon
                  rw [hdb] at hcon; simp at hcon)] at h
              exact Option.noConfusion h
            | dir es =>
              have hdb2 : getBlock s2 dirCid = some (.dir es) := by
                rw [hextSs2.getBlock_eq hlt, hdb]
              obtain ⟨uext, uwf, ult, uself, uisdir, uother⟩ :=
                unwind_spec iwf hdb2 ilt h
              have hextFull : StoreExt s s' := hextSs2.trans uext
              refine ⟨hextFull, uwf, ult, uisdir, ?_, ?_, ?_, ?_⟩
              · rw [readFileAt_cons uself,
                  readFileAt_ext iwf uext ilt (next :: rest)]
                exact iread
              · intro q hq1 hq2
                cases q with
                | nil => simp [ancestorOf] at hq2
                | cons m t =>
                  by_cases hm : head = m
                  · subst hm
                    simp only [ancestorOf, beq_self_eq_true, Bool.true_and] at hq1 hq2
                    have ht0 : t ≠ [] := by
                      intro hcon
                      subst hcon
                      simp [ancestorOf] at hq2
                    rw [statPath_cons uself,
                      statPath_ext iwf uext ilt t,
                      iframe t hq1 hq2]
                    cases t with
                    | nil => exact absurd rfl ht0
                    | cons u t2 =>
                      have hLc : statChild (addDirectory s).1
                          (addDirectory s).2 u = none := by
                        simp [statChild, hcDblk]
                      simp [statPath, hLc, hsc]
                  · have hst : statChild s' newCid m =
                        (es.find? (fun e => e.1 == m)).map (·.2) :=
                      uother m (fun hc => hm hc.symm)
                    have hst2 : statChild s dirCid m =
                        (es.find? (fun e => e.1 == m)).map (·.2) := by
                      simp [statChild, hdb]
                    cases hf : es.find? (fun e => e.1 == m) with
                    | none => simp [statPath, hst, hst2, hf]
                    | some e =>
                      have helt : e.2 < s.length :=
                        WF_entries hwf hdb e (mem_of_find? hf)
                      rw [statPath_cons (by rw [hst, hf]; rfl),
                        statPath_cons (by rw [hst2, hf]; rfl)]
                      exact statPath_ext hwf hextFull helt t
              · intro q hq hqne
                cases q with
                | nil => exact ⟨newCid, rfl, uisdir⟩
                | cons m t =>
                  rcases ancestorOf_cons_iff.mp hq with ⟨rfl, ht⟩
                  have htne : t ≠ next :: rest := fun hcon => by
                    apply hqne; rw [hcon]
                  obtain ⟨c, hc, hcdir⟩ := ianc t ht htne
                  refine ⟨c, ?_, ?_⟩
                  · rw [statPath_cons uself,
                      statPath_ext iwf uext ilt t]
                    exact hc
                  · obtain ⟨des, hdes⟩ := hcdir
                    exact ⟨des, by
                      rw [uext.getBlock_eq (statPath_lt iwf ilt hc), hdes]⟩
              · intro q hq hqne
                cases q with
                | nil => simp [ancestorOf] at hq
                | cons m t =>
                  rcases ancestorOf_cons_iff.mp hq with ⟨rfl, ht⟩
                  have htne : t ≠ next :: rest := fun hcon => by
                    apply hqne; rw [hcon]
                  rw [readFileAt_cons uself,
                    readFileAt_ext iwf uext ilt t]
                  exact iextc t ht htne

/-- Strictly sequential insertion of a batch of (path, content) pairs,
each insertion observing the previous one's resulting root — the loop body
of `ingestFromStaging` (src/ipfs-tree.js lines 105-113). -/
def insertAll (s : Store) (root : Nat) :
    List (List String × Bytes) → Option (Store × Nat)
  | [] => some (s, root)
  | (p, c) :: rest =>
    match addFileToTree s root p c with
    | none => none
    | some (s', r') => insertAll s' r' rest

/-- The content of the last insert of a path in a batch, if any. -/
def lastContent (ins : List (List String × Bytes)) (p : List String) :
    Option Bytes :=
  (ins.reverse.find? (fun e => e.1 == p)).map (·.2)

/-- No inserted path is a proper leading-segment sequence of another
(re-inserting the same path is allowed). -/
def PrefixFree (ins : List (List String × Bytes)) : Prop :=
  ∀ p ∈ ins.map Prod.fst, ∀ q ∈ ins.map Prod.fst, p ≠ q →
    ancestorOf p q = false

theorem lastContent_append_self (acc : List (List String × Bytes))
    (p : List String) (c : Bytes) :
    lastContent (acc ++ [(p, c)]) p = some c := by
  unfold lastContent
  rw [List.reverse_append]
  simp only [List.reverse_singleton, List.singleton_append]
  rw [List.find?_cons_of_pos _ (by simp)]
  rfl

theorem lastContent_append_ne (acc : List (List String × Bytes))
    {p q : List String} (c : Bytes) (h : q ≠ p) :
    lastContent (acc ++ [(p, c)]) q = lastContent acc q := by
  unfold lastContent
  rw [List.reverse_append]
  simp only [List.reverse_singleton, List.singleton_append]
  rw [List.find?_cons_of_neg _ (by simp; exact fun hc => h hc.symm)]

theorem lastContent_none_of_not_mem {ins : List (List String × Bytes)}
    {q : List String} (h : q ∉ ins.map Prod.fst) :
    lastContent ins q = none := by
  unfold lastContent
  cases hf : ins.reverse.find? (fun e => e.1 == q) with
  | none => rfl
  | some e =>
    exfalso
    apply h
    have hm : e ∈ ins := List.mem_reverse.mp (mem_of_find? hf)
    have hp := find?_pred hf
    have : e.1 = q := by simpa using hp
    exact this ▸ List.mem_map.mpr ⟨e, hm, rfl⟩

theorem readFileAt_none_of_dir {s : Store} {cid c : Nat}
    {es : List (String × Nat)} {q : List String}
    (h1 : statPath s cid q = some c) (h2 : getBlock s c = some (.dir es)) :
    readFileAt s cid q = none := by
  simp [readFileAt, h1, h2]

theorem readFileAt_empty_dir (q : List String) :
    readFileAt [Block.dir []] 0 q = none := by
  cases q with
  | nil => rfl
  | cons n t => simp [readFileAt, statPath, statChild, getBlock]

/-- Invariant carried through a sequential batch of inserts: resolution of
every path agrees with the last-insert bookkeeping of the processed
inserts. -/
theorem insertAll_inv :
    ∀ (ins acc : List (List String × Bytes)) (s : Store) (root : Nat)
      (s' : Store) (r' : Nat),
    WF s → root < s.length → IsDirAt s root →
    (∀ q, readFileAt s root q = lastContent acc q) →
    PrefixFree (acc ++ ins) →
    insertAll s root ins = some (s', r') →
    WF s' ∧ r' < s'.length ∧ IsDirAt s' r' ∧
      (∀ q, readFileAt s' r' q = lastContent (acc ++ ins) q) := by
  intro ins
  induction ins with
  | nil =>
    intro acc s root s' r' hwf hroot hdir hinv hpf h
    simp only [insertAll] at h
    have h2 := Option.some.inj h
    have hs : s = s' := congrArg Prod.fst h2
    have hr : root = r' := congrArg Prod.snd h2
    subst hs hr
    simpa using ⟨hwf, hroot, hdir, hinv⟩
  | cons pc rest ih =>
    obtain ⟨p, c⟩ := pc
    intro acc s root s' r' hwf hroot hdir hinv hpf h
    simp only [insertAll] at h
    cases hadd : addFileToTree s root p c with
    | none => rw [hadd] at h; exact Option.noConfusion h
    | some pr =>
      obtain ⟨s1, r1⟩ := pr
      rw [hadd] at h
      simp only at h
      obtain ⟨aext, awf, alt, adir, aread, aframe, aanc, aextc⟩ :=
        addFile_spec p s root c s1 r1 hwf hroot hadd
      have hmem_p : p ∈ (acc ++ (p, c) :: rest).map Prod.fst := by
        simp
      have hnotmem : ∀ q, q ≠ p →
          (ancestorOf q p = true ∨ ancestorOf p q = true) →
          q ∉ acc.map Prod.fst := by
        intro q hqp hanc hqmem
        have hqmem' : q ∈ (acc ++ (p, c) :: rest).map Prod.fst := by
          simp only [List.map_append, List.mem_append]
          exact Or.inl hqmem
        rcases hanc with h1 | h1
        · have := hpf q hqmem' p hmem_p hqp
          rw [h1] at this
          exact Bool.noConfusion this
        · have := hpf p hmem_p q hqmem' (fun hc => hqp hc.symm)
          rw [h1] at this
          exact Bool.noConfusion this
      have hinv1 : ∀ q, readFileAt s1 r1 q =
          lastContent (acc ++ [(p, c)]) q := by
        intro q
        by_cases hqp : q = p
        · subst hqp
          rw [aread, lastContent_append_self]
        · rw [lastContent_append_ne acc c hqp]
          by_cases h1 : ancestorOf q p = true
          · obtain ⟨cd, hcd, es2, hes2⟩ := aanc q h1 hqp
            rw [readFileAt_none_of_dir hcd hes2]
            exact (lastContent_none_of_not_mem
              (hnotmem q hqp (Or.inl h1))).symm
          · by_cases h2 : ancestorOf p q = true
            · rw [aextc q h2 hqp]
              exact (lastContent_none_of_not_mem
                (hnotmem q hqp (Or.inr h2))).symm
            · have h1' : ancestorOf q p = false := by
                revert h1; cases ancestorOf q p <;> simp
              have h2' : ancestorOf p q = false := by
                revert h2; cases ancestorOf p q <;> simp
              have hst := aframe q h2' h1'
              rw [← hinv q]
              unfold readFileAt
              rw [hst]
              cases hsp : statPath s root q with
              | none => rfl
              | some cid =>
                simp only
                rw [aext.getBlock_eq (statPath_lt hwf hroot hsp)]
      have hpf1 : PrefixFree ((acc ++ [(p, c)]) ++ rest) := by
        rw [List.append_assoc, List.singleton_append]
        exact hpf
      have := ih (acc ++ [(p, c)]) s1 r1 s' r' awf alt adir hinv1 hpf1 h
      rw [List.append_assoc, List.singleton_append] at this
      exact this

/-- All proper leading segment sequences of a path (excluding the path
itself), shortest first. -/
def properPrefixes : List String → List (List String)
  | [] => []
  | a :: t => [] :: (properPrefixes t).map (a :: ·)

theorem rmDir_some_dir {s : Store} {cid : Nat} {name : String}
    {r : Store × Nat} (h : rmDir s cid name = some r) :
    ∃ es, getBlock s cid = some (.dir es) := by
  unfold rmDir at h
  cases hb : getBlock s cid with
  | none => rw [hb] at h; exact Option.noConfusion h
  | some b =>
    cases b with
    | file fcon => rw [hb] at h; exact Option.noConfusion h
    | dir es => exact ⟨es, rfl⟩

/-- Specification of a successful `removeFromTree`: the store only grows,
the rebuilt root is a well-formed directory, the removed path no longer
resolves from it, and every proper leading segment sequence of the path
still resolves to a directory. -/
theorem removeFromTree_spec (parts : List String) :
    ∀ (s : Store) (dirCid : Nat) (s' : Store) (c' : Nat),
    WF s → dirCid < s.length →
    removeFromTree s dirCid parts = .ok (s', c') →
    StoreExt s s' ∧ WF s' ∧ c' < s'.length ∧ IsDirAt s' c' ∧
    statPath s' c' parts = none ∧
    (∀ q ∈ properPrefixes parts,
      ∃ c, statPath s' c' q = some c ∧ IsDirAt s' c) := by
  induction parts with
  | nil =>
    intro s dirCid s' c' hwf hlt h
    simp [removeFromTree] at h
  | cons head tail ih =>
    intro s dirCid s' c' hwf hlt h
    cases tail with
    | nil =>
      simp only [removeFromTree] at h
      cases hrm : rmDir s dirCid head with
      | none => rw [hrm] at h; exact Except.noConfusion h
      | some r =>
        obtain ⟨es, hdb⟩ := rmDir_some_dir hrm
        rw [hrm] at h
        simp only at h
        have hr : r = (s', c') := Except.ok.inj h
        subst hr
        have hput : rmDir s dirCid head =
            some (put s (.dir (es.filter (fun e => !(e.1 == head))))) := by
          simp [rmDir, hdb]
        rw [hput] at hrm
        have hrr := Option.some.inj hrm
        have hs' : (put s (.dir (es.filter (fun e => !(e.1 == head))))).1 =
            s' := congrArg Prod.fst hrr
        have hc' : (put s (.dir (es.filter (fun e => !(e.1 == head))))).2 =
            c' := congrArg Prod.snd hrr
        subst hs' hc'
        have hbound : ∀ e ∈ es.filter (fun e => !(e.1 == head)),
            e.2 < s.length :=
          fun e he => WF_entries hwf hdb e (List.mem_of_mem_filter he)
        have hb := put_getBlock s (.dir (es.filter (fun e => !(e.1 == head))))
        refine ⟨put_ext s _, WF_put hwf (by simpa [entriesD] using hbound),
          put_lt s _, ⟨_, hb⟩, ?_, ?_⟩
        · simp only [statPath, statChild, hb, find?_filter_self]
          rfl
        · intro q hq
          simp only [properPrefixes, List.map_nil] at hq
          simp only [List.mem_singleton] at hq
          subst hq
          exact ⟨_, rfl, ⟨_, hb⟩⟩
    | cons next rest =>
      simp only [removeFromTree] at h
      cases hstat : statChild s dirCid head with
      | none => rw [hstat] at h; exact Except.noConfusion h
      | some child =>
        rw [hstat] at h
        simp only at h
        cases hrec : removeFromTree s child (next :: rest) with
        | error e => rw [hrec] at h; exact Except.noConfusion h
        | ok pr =>
          obtain ⟨s1, newChild⟩ := pr
          rw [hrec] at h
          simp only at h
          have hchild : child < s.length := statChild_lt hwf hstat
          obtain ⟨iext, iwf, ilt, iisdir, igone, ipre⟩ :=
            ih s child s1 newChild hwf hchild hrec
          cases hrm : rmDir s1 dirCid head with
          | none => rw [hrm] at h; exact Except.noConfusion h
          | some r2 =>
            obtain ⟨es, hdb1⟩ := rmDir_some_dir hrm
            rw [hrm] at h
            simp only at h
            have hrk : rmOrKeep s1 dirCid head = r2 := by
              simp [rmOrKeep, hrm]
            cases hcp : cp r2.1 newChild r2.2 head with
            | none => rw [hcp] at h; exact Except.noConfusion h
            | some r3 =>
              rw [hcp] at h
              simp only at h
              have hr3 : r3 = (s', c') := Except.ok.inj h
              subst hr3
              have hcp' : cp (rmOrKeep s1 dirCid head).1 newChild
                  (rmOrKeep s1 dirCid head).2 head = some (s', c') := by
                rw [hrk]
                exact hcp
              obtain ⟨uext, uwf, ult, uself, uisdir, uother⟩ :=
                unwind_spec iwf hdb1 ilt hcp'
              refine ⟨iext.trans uext, uwf, ult, uisdir, ?_, ?_⟩
              · rw [statPath_cons uself, statPath_ext iwf uext ilt]
                exact igone
              · intro q hq
                simp only [properPrefixes, List.mem_cons] at hq
                rcases hq with rfl | hq
                · exact ⟨c', rfl, uisdir⟩
                · obtain ⟨t, ht, rfl⟩ := List.mem_map.mp hq
                  obtain ⟨c, hc, hcdir⟩ := ipre t ht
                  refine ⟨c, ?_, ?_⟩
                  · rw [statPath_cons uself, statPath_ext iwf uext ilt]
                    exact hc
                  · obtain ⟨des, hdes⟩ := hcdir
                    exact ⟨des, by
                      rw [uext.getBlock_eq (statPath_lt iwf ilt hc), hdes]⟩

/-- `removeFromTree` succeeds whenever every proper leading segment
sequence of a nonempty path resolves to a directory. -/
theorem removeFromTree_ok (parts : List String) :
    ∀ (s : Store) (dirCid : Nat),
    WF s → dirCid < s.length → parts ≠ [] →
    (∀ q ∈ properPrefixes parts,
      ∃ c, statPath s dirCid q = some c ∧ IsDirAt s c) →
    ∃ s' c', removeFromTree s dirCid parts = .ok (s', c') := by
  induction parts with
  | nil => intro s dirCid _ _ hne _; exact absurd rfl hne
  | cons head tail ih =>
    intro s dirCid hwf hlt _ hpre
    have hpre0 := hpre [] (by cases tail <;> simp [properPrefixes])
    obtain ⟨c0, hc0, hdir0⟩ := hpre0
    obtain ⟨es0, hes0⟩ := hdir0
    have hdirC : c0 = dirCid := by
      simp only [statPath] at hc0
      exact (Option.some.inj hc0).symm
    subst hdirC
    cases tail with
    | nil =>
      have hrm : rmDir s c0 head =
          some (put s (.dir (es0.filter (fun e => !(e.1 == head))))) := by
        simp [rmDir, hes0]
      refine ⟨(put s (.dir (es0.filter (fun e => !(e.1 == head))))).1,
        (put s (.dir (es0.filter (fun e => !(e.1 == head))))).2, ?_⟩
      simp only [removeFromTree, hrm]
    | cons next rest =>
      have hhead : [head] ∈ properPrefixes (head :: next :: rest) := by
        simp only [properPrefixes, List.mem_cons]
        right
        refine List.mem_map.mpr ⟨[], ?_, rfl⟩
        cases rest <;> simp [properPrefixes]
      obtain ⟨c1, hc1, hc1dir⟩ := hpre [head] hhead
      have hstat : statChild s c0 head = some c1 := by
        simp only [statPath] at hc1
        cases hs : statChild s c0 head with
        | none => rw [hs] at hc1; exact Option.noConfusion hc1
        | some c =>
          rw [hs] at hc1
          simp only [statPath] at hc1
          rw [hc1]
      have hrecex : ∃ s1 newChild,
          removeFromTree s c1 (next :: rest) = .ok (s1, newChild) := by
        refine ih s c1 hwf (statChild_lt hwf hstat) (by simp) ?_
        intro q hq
        have hmem : head :: q ∈ properPrefixes (head :: next :: rest) := by
          simp only [properPrefixes, List.mem_cons]
          right
          exact List.mem_map.mpr ⟨q, hq, rfl⟩
        obtain ⟨c, hc, hcdir⟩ := hpre (head :: q) hmem
        rw [statPath_cons hstat] at hc
        exact ⟨c, hc, hcdir⟩
      obtain ⟨s1, newChild, hok⟩ := hrecex
      obtain ⟨iext, iwf, ilt, _, _, _⟩ :=
        removeFromTree_spec (next :: rest) s c1 s1 newChild hwf
          (statChild_lt hwf hstat) hok
      have hdb1 : getBlock s1 c0 = some (.dir es0) := by
        rw [iext.getBlock_eq hlt, hes0]
      have hrm : rmDir s1 c0 head =
          some ((put s1 (.dir (es0.filter (fun e => !(e.1 == head))))).1,
            (put s1 (.dir (es0.filter (fun e => !(e.1 == head))))).2) := by
        simp [rmDir, hdb1]
      have hcp := @cp_after_rm s1 c0 es0 head newChild hdb1
      rw [rmOrKeep_dir hdb1] at hcp
      refine ⟨(put (put s1 (.dir (es0.filter (fun e => !(e.1 == head))))).1
          (.dir (es0.filter (fun e => !(e.1 == head)) ++
            [(head, newChild)]))).1,
        (put (put s1 (.dir (es0.filter (fun e => !(e.1 == head))))).1
          (.dir (es0.filter (fun e => !(e.1 == head)) ++
            [(head, newChild)]))).2, ?_⟩
      simp only [removeFromTree, hstat, hok, hrm]
      rw [hcp]

/-- The mutable state of `createIPFSTree` (src/ipfs-tree.js): the backing
blockstore plus the in-memory root cid, `null` until the first archive is
added or a persisted root is loaded. -/
structure TreeState where
  store : Store
  rootCid : Option Nat
deriving DecidableEq, Repr

/-- `getRootCid()` (src/ipfs-tree.js lines 195-197). -/
def getRootCid (st : TreeState) : Option Nat :=
  st.rootCid

/-- `setRootCid(cid)` (src/ipfs-tree.js lines 203-205). -/
def setRootCid (st : TreeState) (cid : Nat) : TreeState :=
  { st with rootCid := some cid }

/-- `getOrCreateRoot()` (src/ipfs-tree.js lines 34-39): returns the root,
lazily creating (and adopting) an empty directory when none exists. -/
def getOrCreateRoot (st : TreeState) : TreeState × Nat :=
  match st.rootCid with
  | some r => (st, r)
  | none =>
    let d := addDirectory st.store
    ({ store := d.1, rootCid := some d.2 }, d.2)

/-- `path.split("/")` of JavaScript, over the character sequence:
splitting on `/`, keeping empty segments, and yielding `[""]` for the
empty string. -/
def splitChars : List Char → List (List Char)
  | [] => [[]]
  | c :: rest =>
    if c = '/' then [] :: splitChars rest
    else
      match splitChars rest with
      | [] => [[c]]
      | seg :: segs => (c :: seg) :: segs

/-- `path.split("/")` on a string. -/
def splitSlash (path : String) : List String :=
  (splitChars path.data).map (fun cs => String.mk cs)

/-- `path.split("/").filter(Boolean)` from `removePath`
(src/ipfs-tree.js line 163). -/
def normSegs (path : String) : List String :=
  (splitSlash path).filter (fun x => !(x == ""))

/-- `removePath(path)` (src/ipfs-tree.js lines 160-168): the state is
updated only when `removeFromTree` succeeds. -/
def removePath (st : TreeState) (path : String) :
    Except String (TreeState × Nat) :=
  match st.rootCid with
  | none => .error "Tree is empty"
  | some root =>
    if (normSegs path).isEmpty then .error "Cannot remove root"
    else
      match removeFromTree st.store root (normSegs path) with
      | .error e => .error e
      | .ok (s', r') => .ok ({ store := s', rootCid := some r' }, r')

/-- A listing entry as produced by `listTree` (src/ipfs-tree.js lines
140-147): name, kind, child identifier, size (0 for directories). -/
structure LsEntry where
  name : String
  typ : String
  cid : Nat
  size : Nat
deriving DecidableEq, Repr

/-- `fs.ls(cid)` as consumed by `listTree`: the direct children of a
directory block; empty for a file or unknown block (the catch at
src/ipfs-tree.js lines 148-150). -/
def lsEntries (s : Store) (cid : Nat) : List LsEntry :=
  match getBlock s cid with
  | some (.dir es) =>
    es.map (fun e =>
      { name := e.1
        typ := match getBlock s e.2 with
          | some (.dir _) => "directory"
          | _ => "file"
        cid := e.2
        size := match getBlock s e.2 with
          | some (.file c) => c.length
          | _ => 0 })
  | _ => []

/-- `listTree(path)` (src/ipfs-tree.js lines 125-152): empty when no root
exists; empty path lists the root; otherwise the path is resolved by
`fs.stat` and a failed resolution yields an empty listing, not an error. -/
def listTree (st : TreeState) (path : String) : List LsEntry :=
  match st.rootCid with
  | none => []
  | some root =>
    if path == "" then lsEntries st.store root
    else
      match statPath st.store root (splitSlash path) with
      | none => []
      | some target => lsEntries st.store target

/-- Whether `path` resolves against the current root, by the same `stat`
call `listTree` performs (the empty path denotes the root itself). -/
def resolvesPath (st : TreeState) (path : String) : Bool :=
  match st.rootCid with
  | none => false
  | some root =>
    if path == "" then true
    else (statPath st.store root (splitSlash path)).isSome

/-- The ingest loop of `ingestFromStaging` (src/ipfs-tree.js lines
105-113): staged files in walk order, each with its content, or `none`
when reading that file throws.  Returns the store as far as it got,
and on success the final root plus the `archives` audit trail of
(path, root-after-that-insert) pairs. -/
def ingestLoop (s : Store) (root : Nat) :
    List (List String × Option Bytes) →
      Store × Option (Nat × List (List String × Nat))
  | [] => (s, some (root, []))
  | (_, none) :: _ => (s, none)
  | (p, some c) :: rest =>
    match addFileToTree s root p c with
    | none => (s, none)
    | some (s', r') =>
      match ingestLoop s' r' rest with
      | (s'', some (rfin, arch)) => (s'', some (rfin, (p, r') :: arch))
      | (s'', none) => (s'', none)

/-- `ingestFromStaging(stagingDir)` (src/ipfs-tree.js lines 98-117): gets
or lazily creates the root (which may itself set the in-memory root),
inserts every staged file strictly sequentially, and assigns the shared
root only after the whole loop finished; on a thrown error the
in-memory root keeps the value `getOrCreateRoot` left there. -/
def ingestFromStaging (st : TreeState)
    (files : List (List String × Option Bytes)) :
    TreeState × Option (Nat × List (List String × Nat)) :=
  match ingestLoop (getOrCreateRoot st).1.store (getOrCreateRoot st).2
      files with
  | (s', some (rfin, arch)) =>
    ({ store := s', rootCid := some rfin }, some (rfin, arch))
  | (s', none) => ({ store := s', rootCid := (getOrCreateRoot st).1.rootCid }, none)

/-- First segment, other than the last, that fails to resolve along the
descent of `removeFromTree` — the condition the spec's
`path not found: <segment>` failure describes. -/
def firstMissingAncestor (s : Store) (cid : Nat) :
    List String → Option String
  | [] => none
  | [_] => none
  | h :: next :: rest =>
    match statChild s cid h with
    | none => some h
    | some c => firstMissingAncestor s c (next :: rest)

theorem removeFromTree_missing (parts : List String) :
    ∀ (s : Store) (cid : Nat) (seg : String),
    firstMissingAncestor s cid parts = some seg →
    removeFromTree s cid parts = .error ("Path not found: " ++ seg) := by
  induction parts with
  | nil => intro s cid seg h; simp [firstMissingAncestor] at h
  | cons head tail ih =>
    intro s cid seg h
    cases tail with
    | nil => simp [firstMissingAncestor] at h
    | cons next rest =>
      simp only [firstMissingAncestor] at h
      cases hs : statChild s cid head with
      | none =>
        rw [hs] at h
        simp only at h
        have hseg := Option.some.inj h
        subst hseg
        simp [removeFromTree, hs]
      | some c =>
        rw [hs] at h
        simp only at h
        have := ih s c seg h
        simp [removeFromTree, hs, this]

/-- A document of the replicated OrbitDB documents stores, carrying the
fields the embedded code paths read: `_id`, `type`, `peer_id`,
`timestamp`, and the optional `regions` list of node documents (absent on
sync markers). -/
structure ODoc where
  id : String
  typ : String
  peer : String
  ts : Nat
  regions : Option (List String)
deriving DecidableEq, Repr

/-- The visible contents of a documents store: one value per `_id`, as
`db.all()` reports them. -/
abbrev Docs := List ODoc

/-- `db.put(doc)` on a documents store: upsert by `_id`. -/
def putDoc (db : Docs) (d : ODoc) : Docs :=
  (db.filter (fun e => !(e.id == d.id))) ++ [d]

/-- The three replicated documents stores opened by `openDatabases`
(src/databases.js): nodes, trust, attestations. -/
structure Dbs where
  nodes : Docs
  trust : Docs
  attestations : Docs
deriving DecidableEq, Repr

/-- The sync-marker document built by `triggerSync` (src/index.js lines
276-281): reserved id `__sync__`, this station's peer identity, and a
timestamp. -/
def syncMarker (peerId : String) (now : Nat) : ODoc :=
  { id := "__sync__", typ := "replication_trigger", peer := peerId,
    ts := now, regions := none }

/-- `triggerSync(reason)` (src/index.js lines 274-288): builds the marker
and puts it into the nodes store and the trust store — and into no other
store. -/
def triggerSync (dbs : Dbs) (peerId : String) (now : Nat) : Dbs :=
  { dbs with
    nodes := putDoc dbs.nodes (syncMarker peerId now)
    trust := putDoc dbs.trust (syncMarker peerId now) }

/-- `SYNC_DEBOUNCE` (src/index.js line 272). -/
def SYNC_DEBOUNCE : Nat := 30000

/-- State observed by the `peer:connect` sync listener (src/index.js
lines 271-296): the single process-wide `lastSyncTrigger`, the stores,
and ghost counters of how many marker puts each store has received. -/
structure SyncSim where
  lastSyncTrigger : Nat
  dbs : Dbs
  nodesWrites : Nat
  trustWrites : Nat
deriving DecidableEq, Repr

/-- One `triggerSync` call, with the ghost write counters incremented
once per store written. -/
def triggerSyncSim (st : SyncSim) (peerId : String) (now : Nat) :
    SyncSim :=
  { st with
    dbs := triggerSync st.dbs peerId now
    nodesWrites := st.nodesWrites + 1
    trustWrites := st.trustWrites + 1 }

/-- The `peer:connect` listener (src/index.js lines 290-296): within the
debounce window the event is dropped; otherwise `lastSyncTrigger` is
recorded immediately and `triggerSync` fires (after a settle delay that
only postpones the write). -/
def onPeerConnect (st : SyncSim) (peerId : String) (now : Nat) : SyncSim :=
  if now - st.lastSyncTrigger < SYNC_DEBOUNCE then st
  else triggerSyncSim { st with lastSyncTrigger := now } peerId now

/-- A burst of connection events at the given times, in arrival order. -/
def runConnectBurst (st : SyncSim) (peerId : String) (times : List Nat) :
    SyncSim :=
  times.foldl (fun a t => onPeerConnect a peerId t) st

/-- GET /nodes (src/routes/nodes.js lines 37-58): returns all document
values, optionally filtered by a case-insensitive country match against
each document's `regions`.  No reserved-id filtering is applied. -/
def getNodesHandler (nodesDb : Docs) (country : Option String) :
    List ODoc :=
  match country with
  | none => nodesDb
  | some c =>
    nodesDb.filter (fun n =>
      match n.regions with
      | some rs => rs.any (fun r => r.toLower == c.toLower)
      | none => false)

/-- JavaScript `s.startsWith(pre)`, over the character sequences. -/
def strBeginsWith (s pre : String) : Bool :=
  pre.data.isPrefixOf s.data

/-- The `db_sizes` object of GET /health (src/routes/health.js lines
20-22): document counts with internal `__`-prefixed markers excluded
(`!e.value._id.startsWith("__")`). -/
def healthDbSizes (dbs : Dbs) : Nat × Nat × Nat :=
  ((dbs.nodes.filter (fun e => !(strBeginsWith e.id "__"))).length,
    (dbs.trust.filter (fun e => !(strBeginsWith e.id "__"))).length,
    (dbs.attestations.filter
      (fun e => !(strBeginsWith e.id "__"))).length)

/-- Server-side state of the archives routes: the tree manager plus the
durable root file `archive_root_cid.json` (`none` when absent). -/
structure Srv where
  tree : TreeState
  rootFile : Option Nat
deriving DecidableEq, Repr

/-- `persistRootCid` (src/index.js lines 436-438): overwrite the durable
root file with the given root identifier.  It is defined and passed to
`createArchivesRouter`, but the router's parameter destructuring
(src/routes/archives.js line 19) omits it, so no handler can call it. -/
def persistRootCid (srv : Srv) (cid : Nat) : Srv :=
  { srv with rootFile := some cid }

/-- POST /archives (src/routes/archives.js lines 23-52): ingest from the
staging area and respond with the new root and count; the handler
touches only the tree (IPNS publication is external), never the root
file. -/
def postArchives (srv : Srv) (files : List (List String × Option Bytes)) :
    Srv × Option (Nat × Nat) :=
  match ingestFromStaging srv.tree files with
  | (t', some (rfin, arch)) =>
    ({ srv with tree := t' }, some (rfin, arch.length))
  | (t', none) => ({ srv with tree := t' }, none)

/-- DELETE /archives/*path (src/routes/archives.js lines 109-137): remove
the path and respond with the new root; again only the tree is
touched. -/
def deleteArchives (srv : Srv) (path : String) : Srv × Except String Nat :=
  match removePath srv.tree path with
  | .ok (t', r') => ({ srv with tree := t' }, .ok r')
  | .error e => (srv, .error e)

theorem filter_not_filter {α : Type} (p : α → Bool) (l : List α) :
    (l.filter (fun x => !(p x))).filter p = [] := by
  induction l with
  | nil => simp
  | cons a l ih =>
    by_cases ha : p a
    · rw [List.filter_cons_of_neg (by simp [ha])]
      exact ih
    · rw [List.filter_cons_of_pos (by simp [ha]),
        List.filter_cons_of_neg (by simp [ha])]
      exact ih

/-- A burst entirely inside one debounce window fires nothing when every
event time is within the window of the recorded last trigger. -/
theorem runConnectBurst_quiet (times : List Nat) :
    ∀ (st : SyncSim) (peerId : String),
    (∀ t ∈ times, t - st.lastSyncTrigger < SYNC_DEBOUNCE) →
    runConnectBurst st peerId times = st := by
  induction times with
  | nil => intro st p _; rfl
  | cons t rest ih =>
    intro st p hall
    have ht : t - st.lastSyncTrigger < SYNC_DEBOUNCE :=
      hall t (List.mem_cons_self t rest)
    show runConnectBurst (onPeerConnect st p t) p rest = st
    rw [show onPeerConnect st p t = st from by simp [onPeerConnect, ht]]
    exact ih st p (fun x hx => hall x (List.mem_cons_of_mem _ hx))

theorem getOrCreateRoot_some {st : TreeState} {r : Nat}
    (h : st.rootCid = some r) : getOrCreateRoot st = (st, r) := by
  unfold getOrCreateRoot
  rw [h]

theorem getOrCreateRoot_empty :
    getOrCreateRoot ⟨[], none⟩ = (⟨[Block.dir []], some 0⟩, 0) := rfl

/-- A successful batch of inserts is exactly what a fully-read ingest loop
performs: same final store and root, plus the audit trail. -/
theorem insertAll_some_ingestLoop :
    ∀ (files : List (List String × Bytes)) (s : Store) (root : Nat)
      (s' : Store) (r' : Nat),
    insertAll s root files = some (s', r') →
    ∃ arch, ingestLoop s root (files.map (fun e => (e.1, some e.2))) =
      (s', some (r', arch)) := by
  intro files
  induction files with
  | nil =>
    intro s root s' r' h
    simp only [insertAll] at h
    have h2 := Option.some.inj h
    have hs : s = s' := congrArg Prod.fst h2
    have hr : root = r' := congrArg Prod.snd h2
    subst hs hr
    exact ⟨[], rfl⟩
  | cons pc rest ih =>
    obtain ⟨p, c⟩ := pc
    intro s root s' r' h
    simp only [insertAll] at h
    cases hadd : addFileToTree s root p c with
    | none => rw [hadd] at h; exact Option.noConfusion h
    | some pr =>
      obtain ⟨s1, r1⟩ := pr
      rw [hadd] at h
      simp only at h
      obtain ⟨arch, hloop⟩ := ih s1 r1 s' r' h
      refine ⟨(p, r1) :: arch, ?_⟩
      simp only [List.map_cons, ingestLoop, hadd, hloop]

theorem WF_singleton_emptyDir : WF [Block.dir []] := by
  intro b hb e he
  simp only [List.mem_singleton] at hb
  subst hb
  simp [entriesD] at he

theorem PrefixFree_single (p : List String) (c : Bytes) :
    PrefixFree [(p, c)] := by
  intro x hx y hy hne
  simp only [List.map_cons, List.map_nil, List.mem_singleton] at hx hy
  subst hx
  subst hy
  exact absurd rfl hne

/-- Claim C1 (amended): starting from the empty tree (the lazily created
empty directory, `getOrCreateRoot_empty`), for every sequence of inserts
that all succeed and in which no inserted path is a proper leading
segment sequence of another, a path resolves to a file under the
resulting root exactly when it was inserted, and it then carries the
bytes of its last insert. -/
theorem c1_inserts_list_exact (ins : List (List String × Bytes))
    (s' : Store) (r' : Nat) (hpf : PrefixFree ins)
    (h : insertAll [Block.dir []] 0 ins = some (s', r')) :
    ∀ p, readFileAt s' r' p = lastContent ins p := by
  have hwf : WF [Block.dir []] := WF_singleton_emptyDir
  have hbase : ∀ q, readFileAt [Block.dir []] 0 q = lastContent [] q := by
    intro q
    rw [readFileAt_empty_dir]
    rfl
  have hpf' : PrefixFree ([] ++ ins) := by simpa using hpf
  have hres := insertAll_inv ins [] [Block.dir []] 0 s' r' hwf
    (by simp) ⟨[], rfl⟩ hbase hpf' h
  simpa using hres.2.2.2

/-- Claim C1, as stated, fails on the code at two concrete inputs: from
the empty tree, inserting `a/b` then `a` succeeds but leaves `a/b`
unresolvable although it was inserted with content `[1]`; and from a
nonempty starting root holding the file `x`, inserting only `y` leaves
`x` resolvable although it was never inserted. -/
theorem c1_counterexample :
    insertAll [Block.dir []] 0 [(["a", "b"], [1]), (["a"], [2])] =
      some ([Block.dir [], Block.file [1], Block.dir [("b", 1)],
        Block.dir [("a", 2)], Block.file [2], Block.dir [("a", 4)]], 5) ∧
    readFileAt [Block.dir [], Block.file [1], Block.dir [("b", 1)],
      Block.dir [("a", 2)], Block.file [2], Block.dir [("a", 4)]] 5
      ["a", "b"] = none ∧
    lastContent [(["a", "b"], [1]), (["a"], [2])] ["a", "b"] = some [1] ∧
    insertAll [Block.dir [("x", 1)], Block.file [7]] 0 [(["y"], [2])] =
      some ([Block.dir [("x", 1)], Block.file [7], Block.file [2],
        Block.dir [("x", 1), ("y", 2)]], 3) ∧
    readFileAt [Block.dir [("x", 1)], Block.file [7], Block.file [2],
      Block.dir [("x", 1), ("y", 2)]] 3 ["x"] = some [7] ∧
    lastContent [(["y"], [2])] ["x"] = none := by
  decide

theorem c1_inserts_list_exact_witness :
    PrefixFree [(["a"], [1])] ∧
    readFileAt [Block.dir [], Block.file [1], Block.dir [("a", 1)]] 2
      ["a"] = lastContent [(["a"], [1])] ["a"] :=
  ⟨PrefixFree_single ["a"] [1],
    c1_inserts_list_exact [(["a"], [1])] _ _ (PrefixFree_single ["a"] [1])
      (by decide) ["a"]⟩

/-- Claim C2: an insert never alters a node reachable from any
previously existing identifier — resolution and reads against any root
captured before the insert are unchanged — and removing the path just
inserted makes it unresolvable from the new root while the pre-removal
root still reads the inserted bytes. -/
theorem c2_structural_sharing (s : Store) (root : Nat)
    (parts : List String) (content : Bytes) (s1 : Store) (r1 : Nat)
    (hwf : WF s) (hlt : root < s.length)
    (hins : addFileToTree s root parts content = some (s1, r1)) :
    (∀ i, i < s.length → getBlock s1 i = getBlock s i) ∧
    (∀ cap, cap < s.length → ∀ q,
      statPath s1 cap q = statPath s cap q ∧
      readFileAt s1 cap q = readFileAt s cap q) ∧
    (∀ s2 r2, removeFromTree s1 r1 parts = .ok (s2, r2) →
      statPath s2 r2 parts = none ∧
      readFileAt s2 r1 parts = some content) := by
  obtain ⟨aext, awf, alt, _, aread, _, _, _⟩ :=
    addFile_spec parts s root content s1 r1 hwf hlt hins
  refine ⟨aext.2, ?_, ?_⟩
  · intro cap hcap q
    exact ⟨statPath_ext hwf aext hcap q, readFileAt_ext hwf aext hcap q⟩
  · intro s2 r2 hrem
    obtain ⟨rext, rwf, rlt, rdir, rgone, rpre⟩ :=
      removeFromTree_spec parts s1 r1 s2 r2 awf alt hrem
    refine ⟨rgone, ?_⟩
    rw [readFileAt_ext awf rext alt]
    exact aread

theorem c2_structural_sharing_witness :
    WF [Block.dir []] ∧
    statPath [Block.dir [], Block.file [1], Block.dir [("a", 1)]] 0
      ["zz"] = statPath [Block.dir []] 0 ["zz"] ∧
    statPath [Block.dir [], Block.file [1], Block.dir [("a", 1)]] 0
      ["a"] = none ∧
    readFileAt [Block.dir [], Block.file [1], Block.dir [("a", 1)]] 2
      ["a"] = some [1] := by
  have h := c2_structural_sharing [Block.dir []] 0 ["a"] [1]
    [Block.dir [], Block.file [1], Block.dir [("a", 1)]] 2
    WF_singleton_emptyDir (by decide) (by decide)
  refine ⟨WF_singleton_emptyDir, (h.2.1 0 (by decide) ["zz"]).1, ?_, ?_⟩
  · exact (h.2.2 [Block.dir [], Block.file [1], Block.dir [("a", 1)]] 0
      (by rfl)).1
  · exact (h.2.2 [Block.dir [], Block.file [1], Block.dir [("a", 1)]] 0
      (by rfl)).2

/-- Claim C3 (code bug): no archives handler ever writes the durable root
file — POST and DELETE leave it byte-for-byte unchanged, even on a
successful mutation (shown at a concrete successful ingest) — although
`persistRootCid` exists and would overwrite it. -/
theorem c3_routes_never_persist :
    (∀ (srv : Srv) (files : List (List String × Option Bytes)),
      (postArchives srv files).1.rootFile = srv.rootFile) ∧
    (∀ (srv : Srv) (path : String),
      (deleteArchives srv path).1.rootFile = srv.rootFile) ∧
    (postArchives ⟨⟨[], none⟩, none⟩ [(["a"], some [1])]).2 =
      some (2, 1) ∧
    (postArchives ⟨⟨[], none⟩, none⟩ [(["a"], some [1])]).1.rootFile =
      none ∧
    persistRootCid ⟨⟨[], none⟩, none⟩ 2 = ⟨⟨[], none⟩, some 2⟩ := by
  refine ⟨?_, ?_, by decide, by decide, rfl⟩
  · intro srv files
    unfold postArchives
    cases h : ingestFromStaging srv.tree files with
    | mk t' res =>
      cases res with
      | none => rfl
      | some pr =>
        obtain ⟨a, b⟩ := pr
        rfl
  · intro srv path
    unfold deleteArchives
    cases h : removePath srv.tree path with
    | error e => rfl
    | ok pr =>
      obtain ⟨t', r'⟩ := pr
      rfl

/-- Claim C4 (amended): each trigger writes exactly one sync marker —
carrying the reserved id, the station identity, and the timestamp — into
the nodes store and into the trust store, and writes nothing into the
attestations store. -/
theorem c4_marker_per_store (dbs : Dbs) (peerId : String) (now : Nat) :
    (triggerSync dbs peerId now).nodes.filter
      (fun d => d.id == "__sync__") = [syncMarker peerId now] ∧
    (triggerSync dbs peerId now).trust.filter
      (fun d => d.id == "__sync__") = [syncMarker peerId now] ∧
    (triggerSync dbs peerId now).attestations = dbs.attestations := by
  refine ⟨?_, ?_, rfl⟩
  · show (putDoc dbs.nodes (syncMarker peerId now)).filter
      (fun d => d.id == "__sync__") = [syncMarker peerId now]
    unfold putDoc
    rw [List.filter_append]
    simp only [show (syncMarker peerId now).id = "__sync__" from rfl]
    rw [filter_not_filter]
    simp [syncMarker]
  · show (putDoc dbs.trust (syncMarker peerId now)).filter
      (fun d => d.id == "__sync__") = [syncMarker peerId now]
    unfold putDoc
    rw [List.filter_append]
    simp only [show (syncMarker peerId now).id = "__sync__" from rfl]
    rw [filter_not_filter]
    simp [syncMarker]

/-- Claim C4, as stated, is false at a concrete trigger: the marker lands
in the nodes and trust stores, but the attestations store — one of the
replicated document stores — receives no marker. -/
theorem c4_counterexample :
    (triggerSync ⟨[], [], []⟩ "peerA" 1000).nodes.find?
      (fun d => d.id == "__sync__") = some (syncMarker "peerA" 1000) ∧
    (triggerSync ⟨[], [], []⟩ "peerA" 1000).trust.find?
      (fun d => d.id == "__sync__") = some (syncMarker "peerA" 1000) ∧
    (triggerSync ⟨[], [], []⟩ "peerA" 1000).attestations = [] := by
  decide

/-- Claim C5: the connection-event trigger path obeys a single
process-wide 30-second cooldown.  For any burst of connection events
whose times all lie within less than the debounce interval of one
another, at most one marker write per store is produced (and the
attestations store receives none). -/
theorem c5_debounce_burst (times : List Nat) :
    ∀ (st : SyncSim) (peerId : String),
    (∀ a ∈ times, ∀ b ∈ times, a - b < SYNC_DEBOUNCE) →
    (runConnectBurst st peerId times).nodesWrites ≤ st.nodesWrites + 1 ∧
    (runConnectBurst st peerId times).trustWrites ≤ st.trustWrites + 1 ∧
    (runConnectBurst st peerId times).dbs.attestations =
      st.dbs.attestations := by
  induction times with
  | nil =>
    intro st p _
    exact ⟨Nat.le_succ _, Nat.le_succ _, rfl⟩
  | cons t rest ih =>
    intro st p hspan
    have hstep : runConnectBurst st p (t :: rest) =
        runConnectBurst (onPeerConnect st p t) p rest := rfl
    by_cases h : t - st.lastSyncTrigger < SYNC_DEBOUNCE
    · have he : onPeerConnect st p t = st := by simp [onPeerConnect, h]
      rw [hstep, he]
      exact ih st p (fun a ha b hb =>
        hspan a (List.mem_cons_of_mem _ ha) b (List.mem_cons_of_mem _ hb))
    · have he : onPeerConnect st p t =
          triggerSyncSim { st with lastSyncTrigger := t } p t := by
        simp [onPeerConnect, h]
      have hq : runConnectBurst
          (triggerSyncSim { st with lastSyncTrigger := t } p t) p rest =
          triggerSyncSim { st with lastSyncTrigger := t } p t := by
        apply runConnectBurst_quiet
        intro x hx
        show x - t < SYNC_DEBOUNCE
        exact hspan x (List.mem_cons_of_mem _ hx) t (List.mem_cons_self _ _)
      rw [hstep, he, hq]
      exact ⟨Nat.le_refl _, Nat.le_refl _, rfl⟩

theorem c5_debounce_burst_witness :
    (runConnectBurst ⟨0, ⟨[], [], []⟩, 0, 0⟩ "peerA"
      [100000, 100100, 100200, 100300, 100400, 100500, 100600, 100700,
        100800, 100900]).nodesWrites ≤ 0 + 1 ∧
    (runConnectBurst ⟨0, ⟨[], [], []⟩, 0, 0⟩ "peerA"
      [100000, 100100, 100200, 100300, 100400, 100500, 100600, 100700,
        100800, 100900]).trustWrites ≤ 0 + 1 :=
  ⟨(c5_debounce_burst
      [100000, 100100, 100200, 100300, 100400, 100500, 100600, 100700,
        100800, 100900] ⟨0, ⟨[], [], []⟩, 0, 0⟩ "peerA" (by decide)).1,
    (c5_debounce_burst
      [100000, 100100, 100200, 100300, 100400, 100500, 100600, 100700,
        100800, 100900] ⟨0, ⟨[], [], []⟩, 0, 0⟩ "peerA" (by decide)).2.1⟩

/-- Claim C6 (amended): `remove` fails with `Tree is empty` when no root
exists, with `Cannot remove root` when the path normalizes to no
segments, and with `Path not found: <segment>` when an ancestor segment
along the descent does not resolve; when every proper leading segment
sequence of the path resolves to a directory, it succeeds and the
removed path no longer resolves from the returned root. -/
theorem c6_remove_error_cases :
    (∀ (s : Store) (path : String),
      removePath ⟨s, none⟩ path = .error "Tree is empty") ∧
    (∀ (st : TreeState) (root : Nat) (path : String),
      st.rootCid = some root → normSegs path = [] →
      removePath st path = .error "Cannot remove root") ∧
    (∀ (st : TreeState) (root : Nat) (path seg : String),
      st.rootCid = some root →
      firstMissingAncestor st.store root (normSegs path) = some seg →
      removePath st path = .error ("Path not found: " ++ seg)) ∧
    (∀ (st : TreeState) (root : Nat) (path : String),
      st.rootCid = some root → WF st.store → root < st.store.length →
      normSegs path ≠ [] →
      (∀ q ∈ properPrefixes (normSegs path),
        ∃ c, statPath st.store root q = some c ∧ IsDirAt st.store c) →
      ∃ st' r', removePath st path = .ok (st', r') ∧
        statPath st'.store r' (normSegs path) = none) := by
  refine ⟨fun s path => rfl, ?_, ?_, ?_⟩
  · intro st root path hroot hns
    simp [removePath, hroot, hns]
  · intro st root path seg hroot hma
    have hne : normSegs path ≠ [] := by
      intro hcon
      rw [hcon] at hma
      simp [firstMissingAncestor] at hma
    have hie : (normSegs path).isEmpty = false := by
      cases hnp : normSegs path with
      | nil => exact absurd hnp hne
      | cons a l => rfl
    have hrem := removeFromTree_missing (normSegs path) st.store root
      seg hma
    simp [removePath, hroot, hie, hrem]
  · intro st root path hroot hwf hlt hne hpre
    have hie : (normSegs path).isEmpty = false := by
      cases hnp : normSegs path with
      | nil => exact absurd hnp hne
      | cons a l => rfl
    obtain ⟨s', c', hok⟩ :=
      removeFromTree_ok (normSegs path) st.store root hwf hlt hne hpre
    obtain ⟨_, _, _, _, hgone, _⟩ :=
      removeFromTree_spec (normSegs path) st.store root s' c' hwf hlt hok
    refine ⟨⟨s', some c'⟩, c', ?_, hgone⟩
    simp [removePath, hroot, hie, hok]

/-- Claim C6, as stated, is false at a concrete input: in a tree whose
entry `a` is a file, `remove("a/b")` has every ancestor segment
resolvable (`a` exists, and no ancestor is missing), yet the call fails
with the collaborator's not-a-directory error instead of succeeding. -/
theorem c6_counterexample :
    statChild [Block.dir [("a", 1)], Block.file [7]] 0 "a" = some 1 ∧
    firstMissingAncestor [Block.dir [("a", 1)], Block.file [7]] 0
      (normSegs "a/b") = none ∧
    removePath ⟨[Block.dir [("a", 1)], Block.file [7]], some 0⟩ "a/b" =
      .error "not a directory" := by
  refine ⟨by decide, by decide, ?_⟩
  rfl

theorem c6_remove_error_cases_witness :
    removePath ⟨[Block.dir [("a", 1)], Block.file [7]], none⟩ "a" =
      .error "Tree is empty" ∧
    removePath ⟨[Block.dir [("a", 1)], Block.file [7]], some 0⟩ "//" =
      .error "Cannot remove root" ∧
    removePath ⟨[Block.dir [("a", 1)], Block.file [7]], some 0⟩ "zz/y" =
      .error ("Path not found: " ++ "zz") ∧
    ∃ st' r',
      removePath ⟨[Block.dir [("a", 1)], Block.file [7]], some 0⟩ "a" =
        .ok (st', r') ∧
      statPath st'.store r' (normSegs "a") = none :=
  ⟨c6_remove_error_cases.1 [Block.dir [("a", 1)], Block.file [7]] "a",
    c6_remove_error_cases.2.1 ⟨[Block.dir [("a", 1)], Block.file [7]],
      some 0⟩ 0 "//" rfl (by decide),
    c6_remove_error_cases.2.2.1 ⟨[Block.dir [("a", 1)], Block.file [7]],
      some 0⟩ 0 "zz/y" "zz" rfl (by decide),
    c6_remove_error_cases.2.2.2 ⟨[Block.dir [("a", 1)], Block.file [7]],
      some 0⟩ 0 "a" rfl (by decide) (by decide) (by decide)
      (by
        intro q hq
        have hpp : properPrefixes (normSegs "a") = [[]] := by decide
        rw [hpp] at hq
        have hq' : q = [] := by simpa using hq
        subst hq'
        exact ⟨0, rfl, ⟨[("a", 1)], rfl⟩⟩)⟩

/-- Claim C7 (amended): removing a path that was just successfully
removed succeeds again — the leaf removal of an absent entry is a no-op
and the ancestors remain directories — rather than failing with `path
not found` (which occurs only for a missing ancestor segment). -/
theorem c7_remove_twice (st : TreeState) (path : String) (root : Nat)
    (hroot : st.rootCid = some root) (hwf : WF st.store)
    (hlt : root < st.store.length) (st1 : TreeState) (r1 : Nat)
    (h1 : removePath st path = .ok (st1, r1)) :
    ∃ st2 r2, removePath st1 path = .ok (st2, r2) := by
  unfold removePath at h1
  rw [hroot] at h1
  simp only at h1
  cases hnp : normSegs path with
  | nil => rw [hnp] at h1; simp at h1
  | cons a l =>
    rw [hnp] at h1
    simp only [List.isEmpty_cons, Bool.false_eq_true, if_false] at h1
    cases hrem : removeFromTree st.store root (a :: l) with
    | error e => rw [hrem] at h1; simp at h1
    | ok pr =>
      obtain ⟨s1, r1'⟩ := pr
      rw [hrem] at h1
      simp only at h1
      have hpair := Except.ok.inj h1
      have hst1 : ({ store := s1, rootCid := some r1' } : TreeState) =
          st1 := congrArg Prod.fst hpair
      have hr1 : r1' = r1 := congrArg Prod.snd hpair
      subst hst1
      subst hr1
      obtain ⟨rext, rwf, rlt, rdir, rgone, rpre⟩ :=
        removeFromTree_spec (a :: l) st.store root s1 r1' hwf hlt hrem
      obtain ⟨s2, r2, hok2⟩ :=
        removeFromTree_ok (a :: l) s1 r1' rwf rlt (by simp) rpre
      refine ⟨⟨s2, some r2⟩, r2, ?_⟩
      unfold removePath
      simp only [hnp, List.isEmpty_cons, Bool.false_eq_true, if_false,
        hok2]

/-- Claim C7, as stated, is false at a concrete input: removing `a`
twice from a tree holding the file `a` has the second call succeed (as a
no-op returning the unchanged root) instead of failing with `path not
found`. -/
theorem c7_counterexample :
    removePath ⟨[Block.dir [("a", 1)], Block.file [7]], some 0⟩ "a" =
      .ok (⟨[Block.dir [("a", 1)], Block.file [7], Block.dir []],
        some 2⟩, 2) ∧
    removePath ⟨[Block.dir [("a", 1)], Block.file [7], Block.dir []],
      some 2⟩ "a" =
      .ok (⟨[Block.dir [("a", 1)], Block.file [7], Block.dir []],
        some 2⟩, 2) :=
  ⟨rfl, rfl⟩

theorem c7_remove_twice_witness :
    ∃ st2 r2,
      removePath ⟨[Block.dir [("a", 1)], Block.file [7], Block.dir []],
        some 2⟩ "a" = .ok (st2, r2) :=
  c7_remove_twice ⟨[Block.dir [("a", 1)], Block.file [7]], some 0⟩ "a" 0
    rfl (by decide) (by decide)
    ⟨[Block.dir [("a", 1)], Block.file [7], Block.dir []], some 2⟩ 2 rfl

/-- Claim C8 (code bug): after a sync trigger, GET /nodes with no
country filter returns the `__sync__` marker document in its end-user
listing, while the health endpoint's counts exclude it. -/
theorem c8_nodes_listing_includes_marker :
    getNodesHandler (triggerSync ⟨[], [], []⟩ "peerA" 7).nodes none =
      [syncMarker "peerA" 7] ∧
    healthDbSizes (triggerSync ⟨[], [], []⟩ "peerA" 7) = (0, 0, 0) := by
  exact ⟨rfl, by decide⟩

/-- Claim C9: `list(path)` returns an empty listing — and, being a pure
read, leaves the tree state untouched — for every path that does not
resolve against the current root, including when no root exists at
all. -/
theorem c9_list_unresolvable (st : TreeState) (path : String)
    (h : resolvesPath st path = false) : listTree st path = [] := by
  unfold resolvesPath at h
  unfold listTree
  cases hroot : st.rootCid with
  | none => rfl
  | some root =>
    rw [hroot] at h
    simp only at h
    by_cases hp : (path == "") = true
    · rw [hp] at h
      simp at h
    · have hpf : (path == "") = false := by
        revert hp
        cases path == "" <;> simp
      simp only [hpf, Bool.false_eq_true, if_false] at h ⊢
      cases hsp : statPath st.store root (splitSlash path) with
      | none => rfl
      | some c =>
        rw [hsp] at h
        simp at h

theorem c9_list_unresolvable_witness :
    resolvesPath ⟨[Block.dir []], some 0⟩ "x" = false ∧
    listTree ⟨[Block.dir []], some 0⟩ "x" = [] ∧
    resolvesPath ⟨[], none⟩ "anything" = false ∧
    listTree ⟨[], none⟩ "anything" = [] :=
  ⟨by decide, c9_list_unresolvable ⟨[Block.dir []], some 0⟩ "x"
      (by decide),
    rfl, c9_list_unresolvable ⟨[], none⟩ "anything" rfl⟩

/-- Claim C10 (amended): when a root existed before the call, a failed
ingest (after inserting some but not all staged files) leaves the root
observed by `getRootCid` unchanged; the shared root is replaced only
after every staged file has been inserted. -/
theorem c10_ingest_fail_root_unchanged (st : TreeState)
    (files : List (List String × Option Bytes)) (r : Nat)
    (hroot : st.rootCid = some r)
    (hfail : (ingestFromStaging st files).2 = none) :
    getRootCid (ingestFromStaging st files).1 = some r := by
  have hg := getOrCreateRoot_some hroot
  unfold ingestFromStaging at hfail ⊢
  rw [hg] at hfail ⊢
  dsimp only at hfail ⊢
  cases hloop : ingestLoop st.store r files with
  | mk s' res =>
    rw [hloop] at hfail
    cases res with
    | none =>
      show ({ store := s', rootCid := st.rootCid } : TreeState).rootCid =
        some r
      exact hroot
    | some pr =>
      obtain ⟨rfin, arch⟩ := pr
      exact Option.noConfusion
        (show some (rfin, arch) = none from hfail)

/-- Claim C10, as stated, is false at a concrete input: with no root
before the call, an ingest that fails after inserting the first of two
staged files leaves `getRootCid` pointing at the lazily created empty
directory rather than at the original `null`. -/
theorem c10_counterexample :
    getRootCid ⟨[], none⟩ = none ∧
    (ingestFromStaging ⟨[], none⟩
      [(["a"], some [1]), (["b"], none)]).2 = none ∧
    getRootCid (ingestFromStaging ⟨[], none⟩
      [(["a"], some [1]), (["b"], none)]).1 = some 0 :=
  ⟨rfl, rfl, rfl⟩

theorem c10_ingest_fail_root_unchanged_witness :
    (ingestFromStaging ⟨[Block.dir []], some 0⟩ [(["b"], none)]).2 =
      none ∧
    getRootCid (ingestFromStaging ⟨[Block.dir []], some 0⟩
      [(["b"], none)]).1 = some 0 :=
  ⟨rfl, c10_ingest_fail_root_unchanged ⟨[Block.dir []], some 0⟩
    [(["b"], none)] 0 rfl rfl⟩
